import Mathlib

/-!
# Verification of `array-util` (matthunz/array-util)

Shallow embedding of `src/lib.rs`.  The library builds every output array
by allocating a buffer of `MaybeUninit` slots, writing into its slots with
`while` loops, and finally calling `assume_init` to reinterpret the buffer
as a finished array.

Embedding choices:
* A buffer of `N` possibly-uninitialized slots of type `α` is a function
  `Nat → Option α`; slot `k` is uninitialized exactly when the function
  returns `none` at `k`.  `MaybeUninit::uninit_array()` is the constantly
  `none` function, and `data[i] = MaybeUninit::new(v)` is a pointwise
  function update (`write`).
* `assume_init` collects the slots `0, …, N-1` in order.  Its safety
  precondition (all slots initialized) becomes a runtime check: the result
  is `none` exactly when some slot below `N` was never written, so an
  operation of the library returns `some` iff it never reinterprets a
  partially-initialized buffer.
* Each `while pos < bound { …; pos += 1 }` loop is a recursion on a fuel
  argument, with the source's guard kept verbatim; the fuel is initialized
  to the loop bound, which bounds the number of iterations, so the fuel
  never runs out before the guard fails and the recursion computes exactly
  the loop.
* Rust arrays `[T; N]` are Lean lists whose length plays the role of the
  const generic `N`; the indexing `self[pos]` (always in bounds in the
  source) is `List.getD` with the `Inhabited` default.
-/

set_option linter.unusedSectionVars false

namespace ArrayUtil

variable {α : Type} [Inhabited α]

/-- A buffer of possibly-uninitialized slots: `MaybeUninit::uninit_array()`. -/
def uninit_array : Nat → Option α := fun _ => none

/-- `data[i] = MaybeUninit::new(v)`: write value `v` into slot `i`. -/
def write (data : Nat → Option α) (i : Nat) (v : α) : Nat → Option α :=
  Function.update data i (some v)

/-- `assume_init`: reinterpret the first `n` slots of the buffer as a
finished array.  Returns `none` iff some slot below `n` is uninitialized,
mirroring the source's safety precondition. -/
def assume_init (data : Nat → Option α) : Nat → Option (List α)
  | 0 => some []
  | n + 1 =>
    match assume_init data n, data n with
    | some l, some v => some (l ++ [v])
    | _, _ => none

/-- The list `[f 0, …, f (n-1)]`, used to describe the contents of a
finished array slot by slot. -/
def listOf (f : Nat → α) (n : Nat) : List α := (List.range n).map f

/-! ## The operations of `lib.rs` -/

/-- Inner loop of `flatten`: `while i < B { data[pos * B + i] = inner[i]; i += 1 }`. -/
def flatten_inner (inner : List α) (B pos : Nat) : Nat → Nat → (Nat → Option α) → Nat → Option α
  | _, 0, data => data
  | i, fuel + 1, data =>
    if i < B then
      flatten_inner inner B pos (i + 1) fuel (write data (pos * B + i) (inner.getD i default))
    else data

/-- Outer loop of `flatten`: `while pos < A { …inner loop…; pos += 1 }`. -/
def flatten_outer (array : List (List α)) (A B : Nat) : Nat → Nat → (Nat → Option α) → Nat → Option α
  | _, 0, data => data
  | pos, fuel + 1, data =>
    if pos < A then
      flatten_outer array A B (pos + 1) fuel (flatten_inner (array.getD pos []) B pos 0 B data)
    else data

/-- The buffer built by `flatten` just before its `assume_init` call. -/
def flatten_data (array : List (List α)) (A B : Nat) : Nat → Option α :=
  flatten_outer array A B 0 A uninit_array

/-- `flatten`: flattens an `A × B` matrix into a row-major array of length `A * B`. -/
def flatten (array : List (List α)) (A B : Nat) : Option (List α) :=
  assume_init (flatten_data array A B) (A * B)

/-- Loop of `push`: `while pos < LEN { data[pos] = self[pos]; pos += 1 }`. -/
def push_loop (self : List α) (N : Nat) : Nat → Nat → (Nat → Option α) → Nat → Option α
  | _, 0, data => data
  | pos, fuel + 1, data =>
    if pos < N then push_loop self N (pos + 1) fuel (write data pos (self.getD pos default))
    else data

/-- The buffer built by `push` just before its `assume_init` call:
the copy loop followed by `data[N] = MaybeUninit::new(value)`. -/
def push_data (self : List α) (value : α) : Nat → Option α :=
  write (push_loop self self.length 0 self.length uninit_array) self.length value

/-- `push`: appends `value` at the back, output length `LEN + 1`. -/
def push (self : List α) (value : α) : Option (List α) :=
  assume_init (push_data self value) (self.length + 1)

/-- Loop of `remove`, with source cursor `pos` and destination cursor `i`:
`while pos < LEN { if pos != index { data[i] = self[pos]; i += 1 }; pos += 1 }`. -/
def remove_loop (self : List α) (N index : Nat) :
    Nat → Nat → Nat → (Nat → Option α) → Nat → Option α
  | _, _, 0, data => data
  | pos, i, fuel + 1, data =>
    if pos < N then
      if pos ≠ index then
        remove_loop self N index (pos + 1) (i + 1) fuel (write data i (self.getD pos default))
      else remove_loop self N index (pos + 1) i fuel data
    else data

/-- The buffer built by `remove` just before its `assume_init` call. -/
def remove_data (self : List α) (index : Nat) : Nat → Option α :=
  remove_loop self self.length index 0 0 self.length uninit_array

/-- `remove`: drops the element at `index`, shifting later elements left.
The source's `assert!(index < Self::LEN)` fault is modelled as `none`. -/
def remove (self : List α) (index : Nat) : Option (List α) :=
  if index < self.length then
    assume_init (remove_data self index) (self.length - 1)
  else none

/-- `pop`: `self.remove(Self::LEN - 1)`. -/
def pop (self : List α) : Option (List α) :=
  remove self (self.length - 1)

/-- Loop of `reverse`: `while pos < LEN { data[LEN - pos - 1] = self[pos]; pos += 1 }`. -/
def reverse_loop (self : List α) (N : Nat) : Nat → Nat → (Nat → Option α) → Nat → Option α
  | _, 0, data => data
  | pos, fuel + 1, data =>
    if pos < N then
      reverse_loop self N (pos + 1) fuel (write data (N - pos - 1) (self.getD pos default))
    else data

/-- The buffer built by `reverse` just before its `assume_init` call. -/
def reverse_data (self : List α) : Nat → Option α :=
  reverse_loop self self.length 0 self.length uninit_array

/-- `reverse`: reverses the order of the elements, output length `LEN`. -/
def reverse (self : List α) : Option (List α) :=
  assume_init (reverse_data self) self.length

/-- First loop of `split`: `while pos < a.len() { a[pos] = self[pos]; pos += 1 }`
(`a.len()` is `POS`).  Returns the final value of the shared cursor `pos`
together with the buffer `a`. -/
def split_loop_a (self : List α) (POS : Nat) :
    Nat → Nat → (Nat → Option α) → Nat × (Nat → Option α)
  | pos, 0, a => (pos, a)
  | pos, fuel + 1, a =>
    if pos < POS then split_loop_a self POS (pos + 1) fuel (write a pos (self.getD pos default))
    else (pos, a)

/-- Second loop of `split`, continuing with the cursor left by the first:
`while pos < LEN { b[pos - POS] = self[pos]; pos += 1 }`. -/
def split_loop_b (self : List α) (N POS : Nat) : Nat → Nat → (Nat → Option α) → Nat → Option α
  | _, 0, b => b
  | pos, fuel + 1, b =>
    if pos < N then
      split_loop_b self N POS (pos + 1) fuel (write b (pos - POS) (self.getD pos default))
    else b

/-- The two buffers built by `split` just before its `assume_init` calls. -/
def split_data (self : List α) (POS : Nat) : (Nat → Option α) × (Nat → Option α) :=
  let r := split_loop_a self POS 0 POS uninit_array
  (r.2, split_loop_b self self.length POS r.1 self.length uninit_array)

/-- `split`: divides the array at `POS` into parts of lengths `POS` and `LEN - POS`. -/
def split (self : List α) (POS : Nat) : Option (List α) × Option (List α) :=
  (assume_init (split_data self POS).1 POS,
   assume_init (split_data self POS).2 (self.length - POS))

/-! ## Buffer and `assume_init` lemmas -/

theorem write_self (data : Nat → Option α) (i : Nat) (v : α) : write data i v i = some v := by
  unfold write
  exact Function.update_same i (some v) data

theorem write_ne (data : Nat → Option α) (i : Nat) (v : α) {k : Nat} (h : k ≠ i) :
    write data i v k = data k := by
  unfold write
  exact Function.update_noteq h (some v) data

theorem length_listOf (f : Nat → α) (n : Nat) : (listOf f n).length = n := by
  simp [listOf]

theorem getD_listOf (f : Nat → α) {n i : Nat} (h : i < n) (d : α) :
    (listOf f n).getD i d = f i := by
  rw [List.getD_eq_getElem _ _ (by simpa [listOf] using h)]
  simp [listOf]

/-- If every slot below `n` holds `some (f k)`, then `assume_init` succeeds and
returns the list `[f 0, …, f (n-1)]`. -/
theorem assume_init_eq (data : Nat → Option α) (f : Nat → α) (n : Nat)
    (h : ∀ k, k < n → data k = some (f k)) : assume_init data n = some (listOf f n) := by
  induction n with
  | zero => simp [assume_init, listOf]
  | succ n ih =>
    have h1 : assume_init data n = some (listOf f n) := ih fun k hk => h k (by omega)
    have h2 : data n = some (f n) := h n (by omega)
    simp [assume_init, h1, h2, listOf, List.range_succ]

/-- `assume_init` fails on a buffer with an uninitialized slot below `n`. -/
theorem assume_init_none (data : Nat → Option α) {n k : Nat} (hk : k < n)
    (h : data k = none) : assume_init data n = none := by
  induction n with
  | zero => omega
  | succ n ih =>
    by_cases hkn : k = n
    · subst hkn
      simp [assume_init, h]
    · have := ih (by omega)
      simp [assume_init, this]

/-! ## `push` -/

/-- After the copy loop of `push`, slot `k` holds the source element `k` when
`pos ≤ k < N`, and is untouched otherwise. -/
theorem push_loop_get (self : List α) (N : Nat) (fuel : Nat) :
    ∀ (pos : Nat) (data : Nat → Option α), N ≤ pos + fuel → ∀ k,
      push_loop self N pos fuel data k =
        if pos ≤ k ∧ k < N then some (self.getD k default) else data k := by
  induction fuel with
  | zero =>
    intro pos data hfuel k
    rw [push_loop, if_neg (by omega)]
  | succ fuel ih =>
    intro pos data hfuel k
    rw [push_loop]
    by_cases h : pos < N
    · rw [if_pos h, ih (pos + 1) _ (by omega) k]
      by_cases hk : pos + 1 ≤ k ∧ k < N
      · rw [if_pos hk, if_pos ⟨by omega, hk.2⟩]
      · rw [if_neg hk]
        by_cases hk2 : pos ≤ k ∧ k < N
        · have hkp : k = pos := by omega
          subst hkp
          rw [if_pos hk2, write_self]
        · rw [if_neg hk2, write_ne _ _ _ (by omega)]
    · rw [if_neg h, if_neg (by omega)]

/-- Every slot of the buffer built by `push` below `N + 1` holds the
corresponding element of `self ++ [value]`. -/
theorem push_data_get (self : List α) (v : α) {k : Nat} (hk : k < self.length + 1) :
    push_data self v k = some ((self ++ [v]).getD k default) := by
  unfold push_data
  by_cases h : k = self.length
  · subst h
    rw [write_self, List.getD_eq_getElem _ _ (by simp),
      List.getElem_append_right (Nat.le_refl _)]
    simp
  · have hk' : k < self.length := by omega
    rw [write_ne _ _ _ h, push_loop_get self _ _ 0 _ (by omega) k,
      if_pos ⟨Nat.zero_le k, hk'⟩, List.getD_eq_getElem _ _ hk',
      List.getD_eq_getElem _ _ (by simp; omega), List.getElem_append_left hk']

/-- `push` returns the input with `value` appended at the back. -/
theorem push_eq (self : List α) (v : α) : push self v = some (self ++ [v]) := by
  unfold push
  rw [assume_init_eq _ (fun k => (self ++ [v]).getD k default) _
    (fun k hk => push_data_get self v hk)]
  congr 1
  apply List.ext_getElem (by simp [length_listOf])
  intro i h1 h2
  rw [← List.getD_eq_getElem _ default h1, ← List.getD_eq_getElem _ default h2,
    getD_listOf _ (by simpa [length_listOf] using h1)]

/-! ## `reverse` -/

/-- After the loop of `reverse`, slot `k` holds source element `N - 1 - k`
when `k < N - pos`, and is untouched otherwise. -/
theorem reverse_loop_get (self : List α) (N : Nat) (fuel : Nat) :
    ∀ (pos : Nat) (data : Nat → Option α), N ≤ pos + fuel → ∀ k,
      reverse_loop self N pos fuel data k =
        if k < N - pos then some (self.getD (N - 1 - k) default) else data k := by
  induction fuel with
  | zero =>
    intro pos data hfuel k
    rw [reverse_loop, if_neg (by omega)]
  | succ fuel ih =>
    intro pos data hfuel k
    rw [reverse_loop]
    by_cases h : pos < N
    · rw [if_pos h, ih (pos + 1) _ (by omega) k]
      by_cases hk : k < N - (pos + 1)
      · rw [if_pos hk, if_pos (by omega)]
      · rw [if_neg hk]
        by_cases hk2 : k < N - pos
        · have hkp : k = N - pos - 1 := by omega
          rw [if_pos hk2]
          subst hkp
          rw [write_self]
          have hp : N - 1 - (N - pos - 1) = pos := by omega
          rw [hp]
        · rw [if_neg hk2, write_ne _ _ _ (by omega)]
    · rw [if_neg h, if_neg (by omega)]

/-- `reverse` returns the reversed input list. -/
theorem reverse_eq (self : List α) : reverse self = some self.reverse := by
  unfold reverse reverse_data
  rw [assume_init_eq _ (fun k => self.getD (self.length - 1 - k) default) _ ?_]
  · congr 1
    apply List.ext_getElem (by simp [length_listOf])
    intro i h1 h2
    rw [← List.getD_eq_getElem _ default h1,
      getD_listOf _ (by simpa [length_listOf] using h1), List.getElem_reverse,
      List.getD_eq_getElem _ _ (by simp at h2 ⊢; omega)]
  · intro k hk
    rw [reverse_loop_get self _ _ 0 _ (by omega) k, if_pos (by omega)]

/-! ## `remove` and `pop` -/

/-- Loop of `remove` after the skipped index: once `index < pos` and the
destination cursor satisfies `i + 1 = pos`, slot `k` receives source element
`k + 1` for `i ≤ k < N - 1`. -/
theorem remove_loop_get_ge (self : List α) (N index : Nat) (fuel : Nat) :
    ∀ (pos i : Nat) (data : Nat → Option α), N ≤ pos + fuel → index < pos → i + 1 = pos → ∀ k,
      remove_loop self N index pos i fuel data k =
        if i ≤ k ∧ k < N - 1 then some (self.getD (k + 1) default) else data k := by
  induction fuel with
  | zero =>
    intro pos i data hfuel hip hi k
    rw [remove_loop, if_neg (by omega)]
  | succ fuel ih =>
    intro pos i data hfuel hip hi k
    rw [remove_loop]
    by_cases h : pos < N
    · rw [if_pos h, if_pos (by omega : pos ≠ index),
        ih (pos + 1) (i + 1) _ (by omega) (by omega) (by omega) k]
      by_cases hk : i + 1 ≤ k ∧ k < N - 1
      · rw [if_pos hk, if_pos ⟨by omega, hk.2⟩]
      · rw [if_neg hk]
        by_cases hk2 : i ≤ k ∧ k < N - 1
        · have hkp : k = i := by omega
          subst hkp
          rw [if_pos hk2, write_self]
          have hp : k + 1 = pos := hi
          rw [hp]
        · rw [if_neg hk2, write_ne _ _ _ (by omega)]
    · rw [if_neg h, if_neg (by omega)]

/-- Loop of `remove` before the skipped index: while `pos ≤ index < N` and the
two cursors agree, slot `k` receives source element `k` for `k < index` and
`k + 1` for `index ≤ k < N - 1`. -/
theorem remove_loop_get_le (self : List α) (N index : Nat) (fuel : Nat) :
    ∀ (pos : Nat) (data : Nat → Option α), N ≤ pos + fuel → pos ≤ index → index < N → ∀ k,
      remove_loop self N index pos pos fuel data k =
        if pos ≤ k ∧ k < N - 1 then some (self.getD (if k < index then k else k + 1) default)
        else data k := by
  induction fuel with
  | zero =>
    intro pos data hfuel hpi hiN k
    omega
  | succ fuel ih =>
    intro pos data hfuel hpi hiN k
    rw [remove_loop, if_pos (by omega : pos < N)]
    by_cases hpidx : pos = index
    · rw [if_neg (by omega : ¬pos ≠ index),
        remove_loop_get_ge self N index fuel (pos + 1) pos data (by omega) (by omega) rfl k]
      by_cases hk : pos ≤ k ∧ k < N - 1
      · rw [if_pos hk, if_pos hk, if_neg (by omega)]
      · rw [if_neg hk, if_neg hk]
    · rw [if_pos hpidx, ih (pos + 1) _ (by omega) (by omega) hiN k]
      by_cases hk : pos + 1 ≤ k ∧ k < N - 1
      · rw [if_pos hk, if_pos (show pos ≤ k ∧ k < N - 1 by omega)]
      · rw [if_neg hk]
        by_cases hk2 : pos ≤ k ∧ k < N - 1
        · have hkp : k = pos := by omega
          subst hkp
          rw [if_pos hk2, write_self, if_pos (by omega)]
        · rw [if_neg hk2, write_ne _ _ _ (by omega)]

/-- Every slot of the buffer built by `remove` below `N - 1` is initialized,
holding source element `k` before the removed index and `k + 1` from it on. -/
theorem remove_data_get (self : List α) (index : Nat) (h : index < self.length) {k : Nat}
    (hk : k < self.length - 1) :
    remove_data self index k = some (self.getD (if k < index then k else k + 1) default) := by
  unfold remove_data
  rw [remove_loop_get_le self _ index _ 0 _ (by omega) (by omega) h k,
    if_pos ⟨Nat.zero_le k, hk⟩]

/-- `remove` at a valid index returns the list of source elements with the
element at `index` deleted and later elements shifted left. -/
theorem remove_eq (self : List α) (index : Nat) (h : index < self.length) :
    remove self index =
      some (listOf (fun k => self.getD (if k < index then k else k + 1) default)
        (self.length - 1)) := by
  unfold remove
  rw [if_pos h, assume_init_eq _ _ _ (fun k hk => remove_data_get self index h hk)]

/-- `pop` on a non-empty list drops exactly the last element. -/
theorem pop_eq (self : List α) (h : 1 ≤ self.length) : pop self = some self.dropLast := by
  unfold pop
  rw [remove_eq self _ (by omega)]
  congr 1
  apply List.ext_getElem (by simp [length_listOf])
  intro i h1 h2
  have hi : i < self.length - 1 := by simpa [length_listOf] using h1
  rw [← List.getD_eq_getElem _ default h1, getD_listOf _ (by simpa [length_listOf] using h1),
    if_pos hi, List.getElem_dropLast, List.getD_eq_getElem _ _ (by omega)]

/-! ## `flatten` -/

/-- After the inner loop of `flatten`, slot `k` holds element `k - pos * B` of
the current row when `pos * B + i ≤ k < pos * B + B`, untouched otherwise. -/
theorem flatten_inner_get (inner : List α) (B pos : Nat) (fuel : Nat) :
    ∀ (i : Nat) (data : Nat → Option α), B ≤ i + fuel → ∀ k,
      flatten_inner inner B pos i fuel data k =
        if pos * B + i ≤ k ∧ k < pos * B + B then some (inner.getD (k - pos * B) default)
        else data k := by
  induction fuel with
  | zero =>
    intro i data hfuel k
    rw [flatten_inner, if_neg (by omega)]
  | succ fuel ih =>
    intro i data hfuel k
    rw [flatten_inner]
    by_cases h : i < B
    · rw [if_pos h, ih (i + 1) _ (by omega) k]
      by_cases hk : pos * B + (i + 1) ≤ k ∧ k < pos * B + B
      · rw [if_pos hk, if_pos (show pos * B + i ≤ k ∧ k < pos * B + B by omega)]
      · rw [if_neg hk]
        by_cases hk2 : pos * B + i ≤ k ∧ k < pos * B + B
        · have hkp : k = pos * B + i := by omega
          subst hkp
          rw [if_pos hk2, write_self]
          have hp : pos * B + i - pos * B = i := by omega
          rw [hp]
        · rw [if_neg hk2, write_ne _ _ _ (by omega)]
    · rw [if_neg h, if_neg (by omega)]

/-- The outer loop of `flatten` never touches a slot below `pos * B`. -/
theorem flatten_outer_lt (array : List (List α)) (A B : Nat) (fuel : Nat) :
    ∀ (pos : Nat) (data : Nat → Option α) (k : Nat), k < pos * B →
      flatten_outer array A B pos fuel data k = data k := by
  induction fuel with
  | zero =>
    intro pos data k hk
    rw [flatten_outer]
  | succ fuel ih =>
    intro pos data k hk
    rw [flatten_outer]
    by_cases h : pos < A
    · rw [if_pos h, ih (pos + 1) _ k (by rw [add_one_mul]; omega),
        flatten_inner_get _ _ _ _ 0 _ (by omega) k, if_neg (by omega)]
    · rw [if_neg h]

/-- After the outer loop of `flatten`, slot `a * B + b` (for `pos ≤ a < A`,
`b < B`) holds element `b` of row `a`. -/
theorem flatten_outer_get (array : List (List α)) (A B : Nat) (fuel : Nat) :
    ∀ (pos : Nat) (data : Nat → Option α), A ≤ pos + fuel → ∀ a b, pos ≤ a → a < A → b < B →
      flatten_outer array A B pos fuel data (a * B + b) =
        some ((array.getD a []).getD b default) := by
  induction fuel with
  | zero =>
    intro pos data hfuel a b hpa haA hbB
    omega
  | succ fuel ih =>
    intro pos data hfuel a b hpa haA hbB
    rw [flatten_outer, if_pos (by omega : pos < A)]
    by_cases hap : a = pos
    · subst hap
      rw [flatten_outer_lt array A B fuel (a + 1) _ _ (by rw [add_one_mul]; omega),
        flatten_inner_get _ _ _ _ 0 _ (by omega) _, if_pos (by omega)]
      have hs : a * B + b - a * B = b := by omega
      rw [hs]
    · rw [ih (pos + 1) _ (by omega) a b (by omega) haA hbB]

/-- Every slot of the buffer built by `flatten` below `A * B` is initialized,
holding the row-major element at that slot. -/
theorem flatten_data_get (array : List (List α)) (A B : Nat) {k : Nat} (hk : k < A * B) :
    flatten_data array A B k = some ((array.getD (k / B) []).getD (k % B) default) := by
  unfold flatten_data
  rcases Nat.eq_zero_or_pos B with hB | hB
  · rw [hB, Nat.mul_zero] at hk
    omega
  obtain ⟨a, b, haA, hbB, rfl⟩ : ∃ a b, a < A ∧ b < B ∧ k = a * B + b := by
    refine ⟨k / B, k % B, ?_, Nat.mod_lt _ hB, ?_⟩
    · exact (Nat.div_lt_iff_lt_mul hB).mpr hk
    · rw [Nat.mul_comm]
      exact (Nat.div_add_mod k B).symm
  have h1 : (a * B + b) / B = a := by
    rw [Nat.mul_comm a B, Nat.mul_add_div hB, Nat.div_eq_of_lt hbB, Nat.add_zero]
  have h2 : (a * B + b) % B = b := by
    rw [Nat.add_comm, Nat.add_mul_mod_self_right, Nat.mod_eq_of_lt hbB]
  rw [h1, h2, flatten_outer_get array A B A 0 _ (by omega) a b (Nat.zero_le a) haA hbB]

/-- `flatten` returns the row-major list of length `A * B`; it never fails,
whatever the shape of the input. -/
theorem flatten_eq (array : List (List α)) (A B : Nat) :
    flatten array A B =
      some (listOf (fun k => (array.getD (k / B) []).getD (k % B) default) (A * B)) := by
  unfold flatten
  exact assume_init_eq _ _ _ (fun k hk => flatten_data_get array A B hk)

/-! ## `split` -/

/-- The first loop of `split` leaves the shared cursor exactly at `POS`. -/
theorem split_loop_a_fst (self : List α) (POS : Nat) (fuel : Nat) :
    ∀ (pos : Nat) (a : Nat → Option α), POS ≤ pos + fuel → pos ≤ POS →
      (split_loop_a self POS pos fuel a).1 = POS := by
  induction fuel with
  | zero =>
    intro pos a h1 h2
    rw [split_loop_a]
    omega
  | succ fuel ih =>
    intro pos a h1 h2
    rw [split_loop_a]
    by_cases h : pos < POS
    · rw [if_pos h]
      exact ih (pos + 1) _ (by omega) (by omega)
    · rw [if_neg h]
      omega

/-- After the first loop of `split`, slot `k` of the first buffer holds source
element `k` for `pos ≤ k < POS`, untouched otherwise. -/
theorem split_loop_a_snd (self : List α) (POS : Nat) (fuel : Nat) :
    ∀ (pos : Nat) (a : Nat → Option α), POS ≤ pos + fuel → ∀ k,
      (split_loop_a self POS pos fuel a).2 k =
        if pos ≤ k ∧ k < POS then some (self.getD k default) else a k := by
  induction fuel with
  | zero =>
    intro pos a hfuel k
    rw [split_loop_a, if_neg (by omega)]
  | succ fuel ih =>
    intro pos a hfuel k
    rw [split_loop_a]
    by_cases h : pos < POS
    · rw [if_pos h, ih (pos + 1) _ (by omega) k]
      by_cases hk : pos + 1 ≤ k ∧ k < POS
      · rw [if_pos hk, if_pos ⟨by omega, hk.2⟩]
      · rw [if_neg hk]
        by_cases hk2 : pos ≤ k ∧ k < POS
        · have hkp : k = pos := by omega
          subst hkp
          rw [if_pos hk2, write_self]
        · rw [if_neg hk2, write_ne _ _ _ (by omega)]
    · rw [if_neg h, if_neg (by omega)]

/-- After the second loop of `split`, slot `k` of the second buffer holds
source element `k + POS` for `pos - POS ≤ k` and `k + POS < N`. -/
theorem split_loop_b_get (self : List α) (N POS : Nat) (fuel : Nat) :
    ∀ (pos : Nat) (b : Nat → Option α), N ≤ pos + fuel → POS ≤ pos → ∀ k,
      split_loop_b self N POS pos fuel b k =
        if pos - POS ≤ k ∧ k + POS < N then some (self.getD (k + POS) default) else b k := by
  induction fuel with
  | zero =>
    intro pos b hfuel hP k
    rw [split_loop_b, if_neg (by omega)]
  | succ fuel ih =>
    intro pos b hfuel hP k
    rw [split_loop_b]
    by_cases h : pos < N
    · rw [if_pos h, ih (pos + 1) _ (by omega) (by omega) k]
      by_cases hk : pos + 1 - POS ≤ k ∧ k + POS < N
      · rw [if_pos hk, if_pos (show pos - POS ≤ k ∧ k + POS < N by omega)]
      · rw [if_neg hk]
        by_cases hk2 : pos - POS ≤ k ∧ k + POS < N
        · have hkp : k = pos - POS := by omega
          subst hkp
          rw [if_pos hk2, write_self]
          have hp : pos - POS + POS = pos := by omega
          rw [hp]
        · rw [if_neg hk2, write_ne _ _ _ (by omega)]
    · rw [if_neg h, if_neg (by omega)]

/-- Every slot of the first buffer of `split` below `POS` holds the
corresponding source element. -/
theorem split_data_fst_get (self : List α) (POS : Nat) {k : Nat} (hk : k < POS) :
    (split_data self POS).1 k = some (self.getD k default) := by
  simp only [split_data]
  rw [split_loop_a_snd self POS POS 0 _ (by omega) k, if_pos ⟨Nat.zero_le k, hk⟩]

/-- Every slot of the second buffer of `split` below `LEN - POS` holds the
source element `POS` places further. -/
theorem split_data_snd_get (self : List α) (POS : Nat) {k : Nat} (hk : k < self.length - POS) :
    (split_data self POS).2 k = some (self.getD (k + POS) default) := by
  simp only [split_data]
  rw [split_loop_a_fst self POS POS 0 _ (by omega) (Nat.zero_le POS),
    split_loop_b_get self _ POS _ POS _ (by omega) (Nat.le_refl POS) k,
    if_pos ⟨by omega, by omega⟩]

/-- `split` returns exactly the first `POS` elements and the remaining
`LEN - POS` elements of the input. -/
theorem split_eq (self : List α) (POS : Nat) (h : POS ≤ self.length) :
    split self POS = (some (self.take POS), some (self.drop POS)) := by
  unfold split
  rw [assume_init_eq _ (fun k => self.getD k default) _
      (fun k hk => split_data_fst_get self POS hk),
    assume_init_eq _ (fun k => self.getD (k + POS) default) _
      (fun k hk => split_data_snd_get self POS hk)]
  have hfst : listOf (fun k => self.getD k default) POS = self.take POS := by
    apply List.ext_getElem (by simp [length_listOf]; omega)
    intro i h1 h2
    have hi : i < POS := by simpa [length_listOf] using h1
    rw [← List.getD_eq_getElem _ default h1, getD_listOf _ hi, List.getElem_take,
      List.getD_eq_getElem _ _ (by omega)]
  have hsnd : listOf (fun k => self.getD (k + POS) default) (self.length - POS) =
      self.drop POS := by
    apply List.ext_getElem (by simp [length_listOf])
    intro i h1 h2
    have hi : i < self.length - POS := by simpa [length_listOf] using h1
    rw [← List.getD_eq_getElem _ default h1, getD_listOf _ hi, Nat.add_comm i POS,
      List.getElem_drop, List.getD_eq_getElem _ _ (by omega)]
  rw [hfst, hsnd]

/-! ## The claims -/

/-- C1: every public operation (flatten, pop, push, remove, reverse, split)
writes every slot of its output buffer(s) before calling `assume_init`: for
every input, each of the output's `N` slots (and, for split, each slot of both
output buffers) is initialized when the buffer is reinterpreted as a finished
array. -/
theorem claim1_all_slots_written_before_assume_init (α : Type) [Inhabited α] :
    (∀ (array : List (List α)) (A B k : Nat), k < A * B → (flatten_data array A B k).isSome)
    ∧ (∀ (self : List α) (k : Nat), 1 ≤ self.length → k < self.length - 1 →
        (remove_data self (self.length - 1) k).isSome)
    ∧ (∀ (self : List α) (v : α) (k : Nat), k < self.length + 1 → (push_data self v k).isSome)
    ∧ (∀ (self : List α) (index k : Nat), index < self.length → k < self.length - 1 →
        (remove_data self index k).isSome)
    ∧ (∀ (self : List α) (k : Nat), k < self.length → (reverse_data self k).isSome)
    ∧ (∀ (self : List α) (POS k : Nat), POS ≤ self.length →
        (k < POS → ((split_data self POS).1 k).isSome)
        ∧ (k < self.length - POS → ((split_data self POS).2 k).isSome)) := by
  refine ⟨?_, ?_, ?_, ?_, ?_, ?_⟩
  · intro array A B k hk
    rw [flatten_data_get array A B hk]
    rfl
  · intro self k h1 h2
    rw [remove_data_get self _ (by omega) h2]
    rfl
  · intro self v k hk
    rw [push_data_get self v hk]
    rfl
  · intro self index k h1 h2
    rw [remove_data_get self index h1 h2]
    rfl
  · intro self k hk
    unfold reverse_data
    rw [reverse_loop_get self _ _ 0 _ (by omega) k, if_pos (by omega)]
    rfl
  · intro self POS k hPOS
    constructor
    · intro hk
      rw [split_data_fst_get self POS hk]
      rfl
    · intro hk
      rw [split_data_snd_get self POS hk]
      rfl

/-- C2: for every array `a` and every `index < N`, `remove a index` has length
`N - 1` and equals `a` with the element at `index` deleted and all later
elements shifted one position left. -/
theorem claim2_remove_deletes_at_index (α : Type) [Inhabited α] (a : List α) (index : Nat)
    (h : index < a.length) :
    ∃ r, remove a index = some r ∧ r.length = a.length - 1
      ∧ (∀ i, i < index → r.getD i default = a.getD i default)
      ∧ (∀ i, index ≤ i → i < a.length - 1 → r.getD i default = a.getD (i + 1) default) := by
  refine ⟨_, remove_eq a index h, length_listOf _ _, ?_, ?_⟩
  · intro i hi
    have hin : i < a.length - 1 := by omega
    rw [getD_listOf _ hin, if_pos hi]
  · intro i hi1 hi2
    rw [getD_listOf _ hi2, if_neg (by omega)]

/-- C2 witness: `remove [1, 2, 3] 1 = [1, 3]`, slot by slot. -/
theorem claim2_witness :
    ∃ r, remove [1, 2, 3] 1 = some r ∧ r.length = 2
      ∧ (∀ i, i < 1 → r.getD i default = [1, 2, 3].getD i default)
      ∧ (∀ i, 1 ≤ i → i < 2 → r.getD i default = [(1 : Nat), 2, 3].getD (i + 1) default) :=
  claim2_remove_deletes_at_index Nat [1, 2, 3] 1 (by decide)

/-- C3: `remove a index` faults exactly when `index ≥ N` (modelled as the
`none` result), and on a fault no array — not even a partially-built one — is
returned; the embedding is pure, so no caller-visible state can change. -/
theorem claim3_remove_faults_iff_index_oob (α : Type) [Inhabited α] (a : List α) (index : Nat) :
    remove a index = none ↔ a.length ≤ index := by
  constructor
  · intro h
    by_contra hlt
    rw [remove_eq a index (by omega)] at h
    exact Option.noConfusion h
  · intro h
    unfold remove
    rw [if_neg (by omega)]

/-- C4: for every `A × B` matrix `m`, `flatten m` has length `A * B`, satisfies
`flatten(m)[a*B+b] = m[a][b]` for all `a < A`, `b < B`, and never faults. -/
theorem claim4_flatten_row_major (α : Type) [Inhabited α] (m : List (List α)) (A B : Nat)
    (hA : m.length = A) (hB : ∀ row ∈ m, row.length = B) :
    ∃ l, flatten m A B = some l ∧ l.length = A * B
      ∧ ∀ a b, a < A → b < B → l.getD (a * B + b) default = (m.getD a []).getD b default := by
  refine ⟨_, flatten_eq m A B, length_listOf _ _, ?_⟩
  intro a b ha hb
  have h1 : a * B + b < (a + 1) * B := by
    rw [add_one_mul]
    omega
  have h2 : (a + 1) * B ≤ A * B := Nat.mul_le_mul_right B (by omega)
  rw [getD_listOf _ (by omega)]
  have hdiv : (a * B + b) / B = a := by
    rw [Nat.mul_comm a B, Nat.mul_add_div (by omega), Nat.div_eq_of_lt hb, Nat.add_zero]
  have hmod : (a * B + b) % B = b := by
    rw [Nat.add_comm, Nat.add_mul_mod_self_right, Nat.mod_eq_of_lt hb]
  rw [hdiv, hmod]

/-- C4 witness: `flatten [[1, 2], [3, 4]] = [1, 2, 3, 4]`, slot by slot. -/
theorem claim4_witness :
    ∃ l, flatten [[1, 2], [3, 4]] 2 2 = some l ∧ l.length = 2 * 2
      ∧ ∀ a b, a < 2 → b < 2 →
          l.getD (a * 2 + b) default = ([[(1 : Nat), 2], [3, 4]].getD a []).getD b default :=
  claim4_flatten_row_major Nat [[1, 2], [3, 4]] 2 2 (by decide) (by decide)

/-- C5: for `POS ≤ N`, `split a POS` returns parts of lengths `POS` and
`N - POS` whose concatenation in order reconstructs `a`. -/
theorem claim5_split_round_trip (α : Type) [Inhabited α] (a : List α) (POS : Nat)
    (h : POS ≤ a.length) :
    ∃ l1 l2, split a POS = (some l1, some l2) ∧ l1.length = POS
      ∧ l2.length = a.length - POS ∧ l1 ++ l2 = a := by
  refine ⟨_, _, split_eq a POS h, ?_, ?_, ?_⟩
  · rw [List.length_take]
    omega
  · rw [List.length_drop]
  · exact List.take_append_drop POS a

/-- C5 witness: `split [1, 2, 3] 2 = ([1, 2], [3])` and the round trip. -/
theorem claim5_witness :
    ∃ l1 l2, split [1, 2, 3] 2 = (some l1, some l2) ∧ l1.length = 2
      ∧ l2.length = 1 ∧ l1 ++ l2 = [(1 : Nat), 2, 3] :=
  claim5_split_round_trip Nat [1, 2, 3] 2 (by decide)

/-- C6: `push a v` always succeeds and returns `a ++ [v]`, of length `N + 1`. -/
theorem claim6_push_appends_at_back (α : Type) [Inhabited α] (a : List α) (v : α) :
    push a v = some (a ++ [v]) ∧ (a ++ [v]).length = a.length + 1 :=
  ⟨push_eq a v, by simp⟩

/-- C7: on a non-empty array, `pop` returns all but the last element, of length
`N - 1`, and is literally `remove` at index `N - 1`. -/
theorem claim7_pop_drops_last (α : Type) [Inhabited α] (a : List α) (h : 1 ≤ a.length) :
    pop a = some a.dropLast ∧ a.dropLast.length = a.length - 1
      ∧ pop a = remove a (a.length - 1) :=
  ⟨pop_eq a h, by simp, rfl⟩

/-- C7 witness: `pop [1, 2, 3] = [1, 2]`. -/
theorem claim7_witness :
    pop [1, 2, 3] = some [(1 : Nat), 2] ∧ ([(1 : Nat), 2, 3].dropLast).length = 2
      ∧ pop [1, 2, 3] = remove [(1 : Nat), 2, 3] 2 :=
  claim7_pop_drops_last Nat [1, 2, 3] (by decide)

/-- C8: `reverse a` has length `N` and satisfies `reverse(a)[i] = a[N-1-i]`
for every `i < N`. -/
theorem claim8_reverse_pointwise (α : Type) [Inhabited α] (a : List α) (i : Nat)
    (h : i < a.length) :
    ∃ r, reverse a = some r ∧ r.length = a.length
      ∧ r.getD i default = a.getD (a.length - 1 - i) default := by
  refine ⟨_, reverse_eq a, by simp, ?_⟩
  rw [List.getD_eq_getElem _ _ (by simpa using h), List.getElem_reverse,
    List.getD_eq_getElem _ _ (by omega)]

/-- C8 witness: `reverse [1, 2, 3]` at slot 0 holds element 2 of the input. -/
theorem claim8_witness :
    ∃ r, reverse [1, 2, 3] = some r ∧ r.length = 3
      ∧ r.getD 0 default = [(1 : Nat), 2, 3].getD 2 default :=
  claim8_reverse_pointwise Nat [1, 2, 3] 0 (by decide)

/-- C9: `reverse` is an involution: reversing twice reproduces the input. -/
theorem claim9_reverse_involution (α : Type) [Inhabited α] (a : List α) :
    ∃ r, reverse a = some r ∧ reverse r = some a := by
  refine ⟨a.reverse, reverse_eq a, ?_⟩
  rw [reverse_eq, List.reverse_reverse]

/-- C10: `pop (push a v) = a`: pushing a value and then removing the last
element reproduces the original array. -/
theorem claim10_pop_push_round_trip (α : Type) [Inhabited α] (a : List α) (v : α) :
    ∃ r, push a v = some r ∧ pop r = some a := by
  refine ⟨a ++ [v], push_eq a v, ?_⟩
  rw [pop_eq _ (by simp), List.dropLast_concat]

end ArrayUtil
